import Mathlib

/-!
Verification of the ingestion-to-retrieval pipeline of the rfp-ai-agent
repository.  Texts are embedded as `List Char`; JavaScript numbers that hold
integral sizes are embedded as `Int` (with JS `slice` negative-index
semantics made explicit); scores are embedded as `ℚ`.  Loops that advance a
cursor are written with an explicit fuel argument equal to an upper bound on
the iteration count, so that every definition is executable by `decide`.
-/

/-! ## Chunker (lib/chunker.ts) -/

/-- Whitespace test for the regex class `\s` (the ASCII whitespace characters
that occur in the texts of this development). -/
def isWs (c : Char) : Bool :=
  c = ' ' || c = '\n' || c = '\t' || c = '\r' || c = '\x0b' || c = '\x0c'

/-- One pass of `replace(/\s+/g, " ")`: every maximal whitespace run becomes a
single space.  The Boolean flag records whether the scan is currently inside a
whitespace run whose space has already been emitted. -/
def collapseWsAux : Bool → List Char → List Char
  | _, [] => []
  | inRun, c :: rest =>
    if isWs c then
      if inRun then collapseWsAux true rest
      else ' ' :: collapseWsAux true rest
    else c :: collapseWsAux false rest

/-- Model of `s.replace(/\s+/g, " ")`. -/
def collapseWs (s : List Char) : List Char := collapseWsAux false s

/-- Model of `String.prototype.trim`. -/
def jsTrim (s : List Char) : List Char :=
  ((s.dropWhile isWs).reverse.dropWhile isWs).reverse

/-- Model of `clean` from lib/chunker.ts:
`(s || "").replace(/\s+/g, " ").trim()`. -/
def clean (s : List Char) : List Char := jsTrim (collapseWs s)

/-- Index clamping of `String.prototype.slice` (ECMA-262): a negative index
counts from the end of the string, and indices are clamped to `[0, len]`. -/
def jsSliceIdx (len : Nat) (i : Int) : Nat :=
  if i < 0 then (max ((len : Int) + i) 0).toNat else (min i (len : Int)).toNat

/-- Model of `t.slice(start, stop)` on a JS string. -/
def jsSlice (t : List Char) (start stop : Int) : List Char :=
  let f := jsSliceIdx t.length start
  let g := jsSliceIdx t.length stop
  (t.drop f).take (g - f)

/-- Chunk record emitted by `makeChunks` (type `MadeChunk` in the source). -/
structure MadeChunk where
  ord : Nat
  content : List Char
  token_count : Nat
deriving DecidableEq

/-- Loop of `makeChunks`: starting positions `start, start+step, …` while
`start < t.length`; each iteration emits
`t.slice(start, min(t.length, start + size))` together with its ordinal and
the token estimate `Math.ceil(slice.length / 4)`.  The first argument is
fuel; since `step ≥ 1` always holds at call sites, fuel `t.length` is never
exhausted. -/
def makeChunksGo (t : List Char) (size : Int) (step : Nat) :
    Nat → Nat → Nat → List MadeChunk
  | 0, _, _ => []
  | fuel + 1, start, ord =>
    if start < t.length then
      let stop : Int := min (t.length : Int) ((start : Int) + size)
      let slice := jsSlice t (start : Int) stop
      ⟨ord, slice, (slice.length + 3) / 4⟩ ::
        makeChunksGo t size step fuel (start + step) (ord + 1)
    else []

/-- Model of `makeChunks(text, size, overlap)` from lib/chunker.ts.
`step = Math.max(1, size - Math.max(0, overlap))`. -/
def makeChunks (text : List Char) (size overlap : Int) : List MadeChunk :=
  let t := clean text
  if t = [] then []
  else
    let step : Nat := (max 1 (size - max 0 overlap)).toNat
    makeChunksGo t size step t.length 0 0

/-- Reconstruction procedure named by claim C1, following the spec's words:
remove the last `o` characters of every non-final chunk, keep the final chunk
whole, and join. -/
def joinDropOverlap (o : Nat) : List MadeChunk → List Char
  | [] => []
  | [c] => c.content
  | c :: rest => c.content.take (c.content.length - o) ++ joinDropOverlap o rest

/-- Amended reconstruction: keep only the first `step` characters of every
non-final chunk, keep the final chunk whole, and join. -/
def joinKeepStep (step : Nat) : List MadeChunk → List Char
  | [] => []
  | [c] => c.content
  | c :: rest => c.content.take step ++ joinKeepStep step rest

/-- Input text of the end-to-end ingestion scenario of the spec. -/
def slaText : List Char := "What is your SLA?\n\nWe guarantee 99.9% uptime.".toList

/-! ### Chunker lemmas -/

theorem makeChunksGo_eq_nil (t : List Char) (size : Int) (step : Nat)
    (fuel start ord : Nat) (h : ¬ start < t.length) :
    makeChunksGo t size step fuel start ord = [] := by
  cases fuel with
  | zero => rfl
  | succ f => simp [makeChunksGo, h]

theorem makeChunksGo_ne_nil (t : List Char) (size : Int) (step : Nat)
    (fuel start ord : Nat) (h : start < t.length) :
    makeChunksGo t size step (fuel + 1) start ord ≠ [] := by
  simp [makeChunksGo, h]

/-- For a cursor inside the text and positive `size`, the emitted slice is the
ordinary substring `t[start, min(t.length, start + size.toNat))`. -/
theorem jsSlice_of_pos (t : List Char) (start : Nat) (size : Int)
    (hsz : 1 ≤ size) (hlt : start < t.length) :
    jsSlice t (start : Int) (min (t.length : Int) ((start : Int) + size)) =
      (t.drop start).take (min t.length (start + size.toNat) - start) := by
  have hsz' : size = (size.toNat : Int) := (Int.toNat_of_nonneg (by omega)).symm
  have h1 : jsSliceIdx t.length (start : Int) = start := by
    unfold jsSliceIdx
    rw [if_neg (by omega)]
    omega
  have h2 : jsSliceIdx t.length (min (t.length : Int) ((start : Int) + size)) =
      min t.length (start + size.toNat) := by
    unfold jsSliceIdx
    rw [if_neg (by omega)]
    omega
  unfold jsSlice
  rw [h1, h2]

/-- Every chunk emitted by the loop carries the token estimate
`ceil(length / 4)` of its own content. -/
theorem makeChunksGo_token (t : List Char) (size : Int) (step : Nat) :
    ∀ (fuel start ord : Nat) (c : MadeChunk),
      c ∈ makeChunksGo t size step fuel start ord →
      c.token_count = (c.content.length + 3) / 4 := by
  intro fuel
  induction fuel with
  | zero => intro start ord c hc; simp [makeChunksGo] at hc
  | succ f ih =>
    intro start ord c hc
    by_cases h : start < t.length
    · simp only [makeChunksGo, if_pos h, List.mem_cons] at hc
      rcases hc with hc | hc
      · subst hc; rfl
      · exact ih _ _ _ hc
    · rw [makeChunksGo_eq_nil _ _ _ _ _ _ h] at hc
      simp at hc

theorem joinKeepStep_cons₂ (step : Nat) (c d : MadeChunk) (rest : List MadeChunk) :
    joinKeepStep step (c :: d :: rest) =
      c.content.take step ++ joinKeepStep step (d :: rest) := rfl

/-- Core reconstruction lemma: keeping only the first `step` characters of
every non-final chunk and joining yields the suffix of the text from the
current cursor onwards. -/
theorem joinKeepStep_go (t : List Char) (size : Int) (step : Nat)
    (h1 : 1 ≤ step) (h2 : (step : Int) ≤ size) :
    ∀ (fuel start ord : Nat), t.length - start ≤ fuel → start < t.length →
      joinKeepStep step (makeChunksGo t size step fuel start ord) = t.drop start := by
  intro fuel
  induction fuel with
  | zero => intro start ord hf hs; omega
  | succ f ih =>
    intro start ord hf hs
    have hsz : 1 ≤ size := le_trans (by exact_mod_cast h1) h2
    have hstep : step ≤ size.toNat := by omega
    simp only [makeChunksGo, if_pos hs]
    rw [jsSlice_of_pos t start size hsz hs]
    by_cases hnext : start + step < t.length
    · -- a further chunk follows
      have hf1 : 1 ≤ f := by omega
      obtain ⟨f', rfl⟩ : ∃ f', f = f' + 1 := ⟨f - 1, by omega⟩
      have hne := makeChunksGo_ne_nil t size step f' (start + step) (ord + 1) hnext
      obtain ⟨d, rest', hrest⟩ : ∃ d rest',
          makeChunksGo t size step (f' + 1) (start + step) (ord + 1) = d :: rest' := by
        cases hcase : makeChunksGo t size step (f' + 1) (start + step) (ord + 1) with
        | nil => exact absurd hcase hne
        | cons d rest' => exact ⟨d, rest', rfl⟩
      rw [hrest, joinKeepStep_cons₂, ← hrest,
        ih (start + step) (ord + 1) (by omega) hnext]
      have hmin : min t.length (start + size.toNat) - start ≥ step := by omega
      rw [List.take_take]
      rw [min_eq_left hmin]
      exact List.drop_take_append_drop t start step
    · -- final chunk
      rw [makeChunksGo_eq_nil t size step f (start + step) (ord + 1) hnext]
      show (t.drop start).take (min t.length (start + size.toNat) - start) = t.drop start
      have hmin : min t.length (start + size.toNat) = t.length := by omega
      rw [hmin]
      apply List.take_of_length_le
      simp

/-- C1 (amended): for every text, every `size ≥ 1` and every overlap, joining
the chunks after keeping only the first `step = max(1, size - max(0, overlap))`
characters of each non-final chunk reconstructs `clean text` exactly. -/
theorem c1_amended (text : List Char) (size overlap : Int) (hsz : 1 ≤ size) :
    joinKeepStep ((max 1 (size - max 0 overlap)).toNat)
      (makeChunks text size overlap) = clean text := by
  unfold makeChunks
  by_cases ht : clean text = []
  · simp [ht, joinKeepStep]
  · simp only [if_neg ht]
    have hpos : 0 < (clean text).length := List.length_pos.mpr ht
    have h1 : 1 ≤ (max 1 (size - max 0 overlap)).toNat := by omega
    have h2 : ((max 1 (size - max 0 overlap)).toNat : Int) ≤ size := by
      have : max 1 (size - max 0 overlap) ≤ size := by omega
      omega
    have := joinKeepStep_go (clean text) size ((max 1 (size - max 0 overlap)).toNat)
      h1 h2 (clean text).length 0 0 (by omega) hpos
    simpa using this

/-- C1 (counterexample): with text "abcde", size 4 and overlap 2 the middle
chunk "cde" is clipped by the text end, so removing the last 2 characters of
each non-final chunk yields "abce", not the normalized text "abcde". -/
theorem c1_counterexample :
    joinDropOverlap 2 (makeChunks ("abcde".toList) 4 2) ≠ clean ("abcde".toList) := by
  decide

theorem c1_witness :
    joinKeepStep ((max 1 ((4 : Int) - max 0 2)).toNat) (makeChunks ("abcde".toList) 4 2)
      = clean ("abcde".toList) :=
  c1_amended ("abcde".toList) 4 2 (by norm_num)

/-- C7: every chunk emitted by `makeChunks` has a token estimate equal to
`ceil(content length / 4)`, and the spec's SLA input with size 1200 and
overlap 200 yields exactly one chunk whose content is the normalized input
and whose token estimate is `ceil(len / 4)`. -/
theorem c7_token_estimate :
    (∀ (text : List Char) (size overlap : Int) (c : MadeChunk),
        c ∈ makeChunks text size overlap →
        c.token_count = (c.content.length + 3) / 4)
    ∧ makeChunks slaText 1200 200 =
        [⟨0, clean slaText, ((clean slaText).length + 3) / 4⟩] := by
  constructor
  · intro text size overlap c hc
    unfold makeChunks at hc
    by_cases ht : clean text = []
    · simp [ht] at hc
    · simp only [if_neg ht] at hc
      exact makeChunksGo_token _ _ _ _ _ _ _ hc
  · decide

theorem c7_witness :
    (⟨0, clean slaText, ((clean slaText).length + 3) / 4⟩ : MadeChunk).token_count =
      ((⟨0, clean slaText, ((clean slaText).length + 3) / 4⟩ : MadeChunk).content.length + 3) / 4 :=
  c7_token_estimate.1 slaText 1200 200 _ (by decide)

theorem makeChunksGo_pos_content (t : List Char) (size : Int) (step : Nat)
    (hsz : 1 ≤ size) :
    ∀ (fuel start ord : Nat) (c : MadeChunk),
      c ∈ makeChunksGo t size step fuel start ord →
      c.content ≠ [] ∧ c.content.length ≤ size.toNat := by
  intro fuel
  induction fuel with
  | zero => intro start ord c hc; simp [makeChunksGo] at hc
  | succ f ih =>
    intro start ord c hc
    by_cases h : start < t.length
    · simp only [makeChunksGo, if_pos h, List.mem_cons] at hc
      rcases hc with hc | hc
      · subst hc
        simp only [jsSlice_of_pos t start size hsz h]
        constructor
        · apply List.ne_nil_of_length_pos
          rw [List.length_take, List.length_drop]
          omega
        · rw [List.length_take, List.length_drop]
          omega
      · exact ih _ _ _ hc
    · rw [makeChunksGo_eq_nil _ _ _ _ _ _ h] at hc
      simp at hc

theorem jsSlice_zero_size (t : List Char) (start : Nat) (h : start < t.length) :
    jsSlice t (start : Int) (min (t.length : Int) ((start : Int) + 0)) = [] := by
  have h2 : min (t.length : Int) ((start : Int) + 0) = (start : Int) := by omega
  rw [h2]
  unfold jsSlice jsSliceIdx
  rw [if_neg (by omega)]
  simp

theorem makeChunksGo_zero_content (t : List Char) (step : Nat) :
    ∀ (fuel start ord : Nat) (c : MadeChunk),
      c ∈ makeChunksGo t 0 step fuel start ord → c.content = [] := by
  intro fuel
  induction fuel with
  | zero => intro start ord c hc; simp [makeChunksGo] at hc
  | succ f ih =>
    intro start ord c hc
    by_cases h : start < t.length
    · simp only [makeChunksGo, if_pos h, List.mem_cons] at hc
      rcases hc with hc | hc
      · subst hc
        exact jsSlice_zero_size t start h
      · exact ih _ _ _ hc
    · rw [makeChunksGo_eq_nil _ _ _ _ _ _ h] at hc
      simp at hc

/-- C10 (amended): for `size ≥ 1` every chunk produced by `makeChunks` has
non-empty content of length at most `size`; the precondition is necessary in
that `size = 0` yields only empty-content chunks — but for negative `size`
the implementation can still emit non-empty chunks (JS `slice` treats a
negative end index as counting from the end of the string), so the claim's
"size ≤ 0 gives empty content" holds only at `size = 0`. -/
theorem c10_amended :
    (∀ (text : List Char) (size overlap : Int) (c : MadeChunk), 1 ≤ size →
        c ∈ makeChunks text size overlap →
        c.content ≠ [] ∧ c.content.length ≤ size.toNat)
    ∧ (∀ (text : List Char) (overlap : Int) (c : MadeChunk),
        c ∈ makeChunks text 0 overlap → c.content = []) := by
  constructor
  · intro text size overlap c hsz hc
    unfold makeChunks at hc
    by_cases ht : clean text = []
    · simp [ht] at hc
    · simp only [if_neg ht] at hc
      exact makeChunksGo_pos_content _ _ _ hsz _ _ _ _ hc
  · intro text overlap c hc
    unfold makeChunks at hc
    by_cases ht : clean text = []
    · simp [ht] at hc
    · simp only [if_neg ht] at hc
      exact makeChunksGo_zero_content _ _ _ _ _ _ hc

/-- C10 (counterexample): with size −5 the implementation emits non-empty
chunks (the first chunk of a 10-character text is its first 5 characters),
refuting "for size ≤ 0 the implementation emits chunks with empty content". -/
theorem c10_counterexample :
    ¬ ∀ c ∈ makeChunks ("abcdefghij".toList) (-5) 0, c.content = [] := by
  decide

theorem c10_witness :
    (⟨0, "ab".toList, 1⟩ : MadeChunk).content ≠ [] ∧
      (⟨0, "ab".toList, 1⟩ : MadeChunk).content.length ≤ (2 : Int).toNat :=
  c10_amended.1 ("abc".toList) 2 0 _ (by norm_num) (by decide)

/-! ## Batch Writer (lib/db.ts) -/

/-- Row handed to the writer; `poisoned` marks a row whose upsert always
fails with a transient error (the scenario of the Batch Writer claims). -/
structure Row where
  id : Nat
  poisoned : Bool
deriving DecidableEq

/-- Error reported by one upsert attempt of the store: the transient flag is
the result of the `looksTransient` regex test on the message, and `msg`
abstracts the message text. -/
structure UpErr where
  transient : Bool
  msg : Nat
deriving DecidableEq

/-- Half split used by `tryUpsert`: `mid = Math.ceil(rows.length / 2)`,
halves `rows.slice(0, mid)` and `rows.slice(mid)`. -/
def splitHalves (rows : List Row) : List Row × List Row :=
  (rows.take ((rows.length + 1) / 2), rows.drop ((rows.length + 1) / 2))

/-- Model of `tryUpsert(table, rows, onConflict, attempt)` from lib/db.ts,
parameterized by the store's behavior `att`: `att rows attempt = none` means
the upsert of that slice succeeded (all its rows written), `some e` that it
failed with error `e`.  The result is the list of rows durably written and
the error surfaced to the caller (`none` = normal return).  On a transient
failure of a slice with more than one row the slice is halved and each half
retried; an error thrown by the first half's retry propagates at once, so the
second half is not attempted.  The first argument is fuel; fuel
`rows.length` is never exhausted because every recursive call gets a strictly
shorter slice.  The backoff `sleep(150 * attempt)` has no observable effect
here beyond the incremented `attempt`. -/
def tryUpsertG (att : List Row → Nat → Option UpErr) :
    Nat → List Row → Nat → List Row × Option Nat
  | 0, _, _ => ([], none)
  | fuel + 1, rows, attempt =>
    if rows = [] then ([], none)
    else
      match att rows attempt with
      | none => (rows, none)
      | some e =>
        if e.transient && decide (1 < rows.length) then
          match tryUpsertG att fuel (splitHalves rows).1 (attempt + 1) with
          | (w1, some e1) => (w1, some e1)
          | (w1, none) =>
            let r2 := tryUpsertG att fuel (splitHalves rows).2 (attempt + 1)
            (w1 ++ r2.1, r2.2)
        else ([], some e.msg)

/-- Store behavior of the poisoned-row scenario: a slice fails, with a
transient error carrying the first poisoned row's id, exactly when it
contains a poisoned row; otherwise the upsert succeeds. -/
def poisonAtt (rows : List Row) (_attempt : Nat) : Option UpErr :=
  (rows.find? (fun r => r.poisoned)).map (fun r => ⟨true, r.id⟩)

/-- Model of `tryUpsert(table, rows, onConflict)` under the poisoned-row
store behavior, started at attempt 1 as in the source. -/
def tryUpsert (rows : List Row) : List Row × Option Nat :=
  tryUpsertG poisonAtt rows.length rows 1

/-- Model of `chunkedUpsert`'s loop: slices of `chunkSize` rows are upserted
sequentially; an error thrown by `tryUpsert` aborts the loop. -/
def chunkedUpsertGo : List (List Row) → List Row × Option Nat
  | [] => ([], none)
  | c :: cs =>
    match tryUpsert c with
    | (w, some e) => (w, some e)
    | (w, none) =>
      let r := chunkedUpsertGo cs
      (w ++ r.1, r.2)

/-! ### Batch Writer lemmas -/

theorem poisonAtt_none (rows : List Row) (a : Nat)
    (h : ∀ r ∈ rows, r.poisoned = false) : poisonAtt rows a = none := by
  unfold poisonAtt
  rw [List.find?_eq_none.mpr (by intro x hx; simp [h x hx])]
  rfl

theorem poisonAtt_found (pre post : List Row) (p : Row) (a : Nat)
    (hpre : ∀ r ∈ pre, r.poisoned = false) (hp : p.poisoned = true) :
    poisonAtt (pre ++ p :: post) a = some ⟨true, p.id⟩ := by
  unfold poisonAtt
  rw [List.find?_append]
  rw [List.find?_eq_none.mpr (by intro x hx; simp [hpre x hx])]
  rw [List.find?_cons_of_pos _ hp]
  rfl

/-- A slice without poisoned rows is written whole on the first attempt. -/
theorem tryUpsertG_all_good (fuel : Nat) (rows : List Row) (a : Nat)
    (h : ∀ r ∈ rows, r.poisoned = false) :
    tryUpsertG poisonAtt (fuel + 1) rows a = (rows, none) := by
  by_cases hr : rows = []
  · subst hr; rfl
  · simp only [tryUpsertG, if_neg hr, poisonAtt_none rows a h]

theorem take_append_cons_of_le (pre post : List Row) (p : Row) (m : Nat)
    (h : m ≤ pre.length) : (pre ++ p :: post).take m = pre.take m := by
  rw [List.take_append_eq_append_take, show m - pre.length = 0 by omega]
  simp

theorem drop_append_cons_of_le (pre post : List Row) (p : Row) (m : Nat)
    (h : m ≤ pre.length) : (pre ++ p :: post).drop m = pre.drop m ++ p :: post := by
  rw [List.drop_append_eq_append_drop, show m - pre.length = 0 by omega]
  simp

theorem take_append_cons_of_gt (pre post : List Row) (p : Row) (m : Nat)
    (h : pre.length < m) :
    (pre ++ p :: post).take m = pre ++ p :: post.take (m - pre.length - 1) := by
  rw [List.take_append_eq_append_take, List.take_of_length_le (le_of_lt h)]
  congr 1
  rw [show m - pre.length = (m - pre.length - 1) + 1 by omega, List.take_succ_cons]
  simp

/-- Core poisoned-row lemma: run on `pre ++ p :: post` with `pre` and `post`
clean and `p` poisoned, the halving retry writes exactly the rows before the
poisoned one and surfaces the poisoned row's error; the rows after it are
never written because the error from the half containing `p` propagates
before the later half or later slices are attempted. -/
theorem tryUpsertG_poison :
    ∀ (fuel : Nat) (pre post : List Row) (p : Row) (a : Nat),
      (∀ r ∈ pre, r.poisoned = false) → (∀ r ∈ post, r.poisoned = false) →
      p.poisoned = true → (pre ++ p :: post).length ≤ fuel →
      tryUpsertG poisonAtt fuel (pre ++ p :: post) a = (pre, some p.id) := by
  intro fuel
  induction fuel with
  | zero =>
    intro pre post p a _ _ _ hlen
    simp at hlen
  | succ f ih =>
    intro pre post p a hpre hpost hp hlen
    have hne : pre ++ p :: post ≠ [] := by simp
    have hn : (pre ++ p :: post).length = pre.length + post.length + 1 := by
      rw [List.length_append, List.length_cons]
      omega
    simp only [tryUpsertG, if_neg hne, poisonAtt_found pre post p a hpre hp]
    by_cases hlt : 1 < (pre ++ p :: post).length
    · have hbranch : ((⟨true, p.id⟩ : UpErr).transient &&
          decide (1 < (pre ++ p :: post).length)) = true := by
        rw [decide_eq_true hlt]
        rfl
      rw [if_pos hbranch]
      have hf1 : 1 ≤ f := by omega
      simp only [splitHalves]
      by_cases hsplit : ((pre ++ p :: post).length + 1) / 2 ≤ pre.length
      · -- the poisoned row is in the second half
        rw [take_append_cons_of_le pre post p _ hsplit,
          drop_append_cons_of_le pre post p _ hsplit]
        obtain ⟨f', rfl⟩ : ∃ f', f = f' + 1 := ⟨f - 1, by omega⟩
        rw [tryUpsertG_all_good f' (pre.take (((pre ++ p :: post).length + 1) / 2)) (a + 1)
          (fun r hr => hpre r (List.mem_of_mem_take hr))]
        rw [ih (pre.drop (((pre ++ p :: post).length + 1) / 2)) post p (a + 1)
          (fun r hr => hpre r (List.mem_of_mem_drop hr)) hpost hp
          (by simp only [List.length_append, List.length_cons, List.length_drop]; omega)]
        simp [List.take_append_drop]
      · -- the poisoned row is in the first half
        rw [take_append_cons_of_gt pre post p _ (by omega)]
        rw [ih pre (post.take (((pre ++ p :: post).length + 1) / 2 - pre.length - 1)) p (a + 1)
          hpre (fun r hr => hpost r (List.mem_of_mem_take hr)) hp
          (by simp only [List.length_append, List.length_cons, List.length_take]; omega)]
    · -- single-row slice: throw at once
      have hpre0 : pre = [] := List.length_eq_zero.mp (by omega)
      have hbranch : ((⟨true, p.id⟩ : UpErr).transient &&
          decide (1 < (pre ++ p :: post).length)) = false := by
        rw [decide_eq_false hlt]
        rfl
      rw [if_neg (by rw [hbranch]; simp)]
      rw [hpre0]

/-- C2 (amended): with exactly one poisoned row that always fails with a
transient error and all other rows succeeding, the writer upserts exactly the
non-poisoned rows that precede the poisoned row and surfaces the poisoned
row's error; the non-poisoned rows after the poisoned row are not upserted,
because the error thrown while isolating the poisoned row propagates before
the later half-slices are attempted — good rows are dropped, though never
silently (an error is always reported to the caller). -/
theorem c2_amended (pre post : List Row) (p : Row)
    (hpre : ∀ r ∈ pre, r.poisoned = false) (hpost : ∀ r ∈ post, r.poisoned = false)
    (hp : p.poisoned = true) :
    tryUpsert (pre ++ p :: post) = (pre, some p.id) :=
  tryUpsertG_poison (pre ++ p :: post).length pre post p 1 hpre hpost hp (le_refl _)

/-- C2 (counterexample): on `[good 0, poisoned 1, good 2]` the writer reports
the poisoned row's error but upserts only row 0 — the non-poisoned row 2 is
not upserted, refuting "the writer upserts all non-poisoned rows". -/
theorem c2_counterexample :
    tryUpsert [⟨0, false⟩, ⟨1, true⟩, ⟨2, false⟩] = ([⟨0, false⟩], some 1) ∧
      (⟨2, false⟩ : Row) ∉ (tryUpsert [⟨0, false⟩, ⟨1, true⟩, ⟨2, false⟩]).1 := by
  decide

theorem c2_witness :
    tryUpsert ([⟨0, false⟩] ++ (⟨1, true⟩ : Row) :: [⟨2, false⟩]) = ([⟨0, false⟩], some 1) :=
  c2_amended [⟨0, false⟩] [⟨2, false⟩] ⟨1, true⟩ (by decide) (by decide) rfl

/-- C9: the halving retry terminates because each recursive invocation gets a
strictly shorter slice — for a slice of `n ≥ 2` rows the halves have exactly
`⌈n/2⌉` and `⌊n/2⌋` rows, both strictly fewer than `n` — and a slice of at
most one row never recurses: for any store behavior its run is the
non-recursive base expression (success, or the error surfaced at once). -/
theorem c9_halving_terminates :
    (∀ rows : List Row, 2 ≤ rows.length →
        (splitHalves rows).1.length = (rows.length + 1) / 2 ∧
        (splitHalves rows).2.length = rows.length / 2 ∧
        (splitHalves rows).1.length < rows.length ∧
        (splitHalves rows).2.length < rows.length)
    ∧ (∀ (att : List Row → Nat → Option UpErr) (fuel : Nat) (rows : List Row) (a : Nat),
        rows.length ≤ 1 →
        tryUpsertG att (fuel + 1) rows a =
          (if rows = [] then ([], none)
           else match att rows a with
                | none => (rows, none)
                | some e => ([], some e.msg))) := by
  constructor
  · intro rows h2
    unfold splitHalves
    simp only [List.length_take, List.length_drop]
    omega
  · intro att fuel rows a h1
    cases rows with
    | nil => rfl
    | cons r rest =>
      cases rest with
      | nil =>
        cases hatt : att [r] a with
        | none => simp [tryUpsertG, hatt]
        | some e => simp [tryUpsertG, hatt]
      | cons s rest' => simp at h1

/-! ## Embedding Batcher (embedBatch and its helper chunk) -/

/-- Knowledge item as read from the store (type `QAItem` in lib/kb.ts; only
the fields used by `embedBatch` are carried). -/
structure QAItem where
  id : Nat
  Q : List Char
  A : List Char
deriving DecidableEq

/-- Loop of `chunk<T>(arr, n)`: pushes `arr.slice(i, i + n)` for
`i = 0, n, 2n, …`.  The first argument is fuel; fuel `arr.length` suffices
when `n ≥ 1` (for `n = 0` the source loop would not terminate; the model then
returns `[]`, a case no claim relies on). -/
def chunkListGo {α : Type} (n : Nat) : Nat → List α → List (List α)
  | 0, _ => []
  | _, [] => []
  | fuel + 1, xs => xs.take n :: chunkListGo n fuel (xs.drop n)

/-- Model of `chunk<T>(arr, n)` from the embedding batcher. -/
def chunkList {α : Type} (n : Nat) (xs : List α) : List (List α) :=
  chunkListGo n xs.length xs

/-- Inner loop of `embedBatch`: `resp.data.forEach(row => { const item =
items[idx++]; vectors.push({ id: item.id, embedding: row.embedding.map(round) }) })`,
with one response row per input of the group, in input order (the
order-preserving contract of the embedding service).  The `none` branch
models the out-of-range read `items[idx]`; it is unreachable because `idx`
stays below `items.length` throughout. -/
def emitGroup {α : Type} (rnd : α → α) (items : List QAItem) :
    List (List α) → Nat → List (Nat × List α)
  | [], _ => []
  | row :: rest, idx =>
    match items[idx]? with
    | some item => (item.id, row.map rnd) :: emitGroup rnd items rest (idx + 1)
    | none => emitGroup rnd items rest (idx + 1)

/-- Outer loop of `embedBatch` over the request groups, threading `idx`. -/
def embedLoop {α : Type} (rnd : α → α) (items : List QAItem) :
    List (List (List α)) → Nat → List (Nat × List α)
  | [], _ => []
  | g :: gs, idx =>
    emitGroup rnd items g idx ++ embedLoop rnd items gs (idx + g.length)

/-- Pure core of `embedBatch(batchId)`: the items read for the batch are
mapped to their question texts (`items.map(it => it.Q || "")`), grouped by
64, each group is sent to the embedding service `e` (one vector per input,
in input order), and every returned vector is rounded componentwise by the
abstract rounding function `rnd` and keyed by the id of the item at the
running index. -/
def embedVectors {α : Type} (e : List Char → List α) (rnd : α → α)
    (items : List QAItem) : List (Nat × List α) :=
  let inputs := items.map (fun it => it.Q)
  let byChunks := chunkList 64 inputs
  embedLoop rnd items (byChunks.map (fun g => g.map e)) 0

/-! ### Embedding Batcher lemmas -/

theorem chunkListGo_nil {α : Type} (n fuel : Nat) :
    chunkListGo n fuel ([] : List α) = [] := by
  cases fuel <;> rfl

theorem chunkListGo_congr {α : Type} (n : Nat) (hn : 1 ≤ n) :
    ∀ (f1 f2 : Nat) (xs : List α), xs.length ≤ f1 → xs.length ≤ f2 →
      chunkListGo n f1 xs = chunkListGo n f2 xs := by
  intro f1
  induction f1 with
  | zero =>
    intro f2 xs h1 _
    have : xs = [] := List.length_eq_zero.mp (by omega)
    subst this
    rw [chunkListGo_nil, chunkListGo_nil]
  | succ f ih =>
    intro f2 xs h1 h2
    cases xs with
    | nil => rw [chunkListGo_nil, chunkListGo_nil]
    | cons x t =>
      have hx1 : t.length + 1 ≤ f + 1 := by simpa using h1
      have hx2 : t.length + 1 ≤ f2 := by simpa using h2
      obtain ⟨f2', rfl⟩ : ∃ f2', f2 = f2' + 1 := ⟨f2 - 1, by omega⟩
      show (x :: t).take n :: chunkListGo n f ((x :: t).drop n) =
        (x :: t).take n :: chunkListGo n f2' ((x :: t).drop n)
      rw [ih f2' ((x :: t).drop n)
        (by simp only [List.length_drop, List.length_cons]; omega)
        (by simp only [List.length_drop, List.length_cons]; omega)]

theorem chunkList_cons {α : Type} (n : Nat) (hn : 1 ≤ n) (xs : List α)
    (hxs : xs ≠ []) :
    chunkList n xs = xs.take n :: chunkList n (xs.drop n) := by
  unfold chunkList
  cases xs with
  | nil => exact absurd rfl hxs
  | cons x t =>
    show (x :: t).take n :: chunkListGo n (t.length) ((x :: t).drop n) =
      (x :: t).take n :: chunkListGo n ((x :: t).drop n).length ((x :: t).drop n)
    rw [chunkListGo_congr n hn t.length ((x :: t).drop n).length ((x :: t).drop n)
      (by simp; omega) (le_refl _)]

/-- Joining the groups gives back the original list. -/
theorem chunkList_flatten {α : Type} (n : Nat) (hn : 1 ≤ n) :
    ∀ (fuel : Nat) (xs : List α), xs.length ≤ fuel →
      (chunkList n xs).flatten = xs := by
  intro fuel
  induction fuel with
  | zero =>
    intro xs h
    have : xs = [] := List.length_eq_zero.mp (by omega)
    subst this
    rfl
  | succ f ih =>
    intro xs h
    by_cases hxs : xs = []
    · subst hxs; rfl
    · rw [chunkList_cons n hn xs hxs]
      have hlen : 0 < xs.length := List.length_pos.mpr hxs
      rw [List.flatten_cons, ih (xs.drop n) (by simp; omega)]
      exact List.take_append_drop n xs

/-- Every group except possibly the last has length exactly `n`. -/
theorem chunkList_dropLast_length {α : Type} (n : Nat) (hn : 1 ≤ n) :
    ∀ (fuel : Nat) (xs : List α) (g : List α), xs.length ≤ fuel →
      g ∈ (chunkList n xs).dropLast → g.length = n := by
  intro fuel
  induction fuel with
  | zero =>
    intro xs g h hg
    have : xs = [] := List.length_eq_zero.mp (by omega)
    subst this
    simp [chunkList, chunkListGo_nil] at hg
  | succ f ih =>
    intro xs g h hg
    by_cases hxs : xs = []
    · subst hxs; simp [chunkList, chunkListGo_nil] at hg
    · rw [chunkList_cons n hn xs hxs] at hg
      by_cases hdrop : xs.drop n = []
      · rw [hdrop] at hg
        simp [chunkList, chunkListGo_nil] at hg
      · rw [chunkList_cons n hn (xs.drop n) hdrop, List.dropLast_cons₂] at hg
        rw [← chunkList_cons n hn (xs.drop n) hdrop] at hg
        rcases List.mem_cons.mp hg with hg | hg
        · subst hg
          have : n < xs.length := by
            have := List.length_pos.mpr hdrop
            simp at this
            omega
          simp [List.length_take]
          omega
        · exact ih (xs.drop n) g (by simp; omega) hg

/-- Running the inner loop over the first `k` response rows starting at the
matching index pairs the i-th row with the i-th remaining item. -/
theorem emitGroup_spec {α : Type} (e : List Char → List α) (rnd : α → α)
    (items : List QAItem) :
    ∀ (its1 : List QAItem) (k idx : Nat), items.drop idx = its1 →
      emitGroup rnd items ((its1.take k).map (fun it => e it.Q)) idx =
        (its1.take k).map (fun it => (it.id, (e it.Q).map rnd)) := by
  intro its1
  induction its1 with
  | nil => intro k idx _; simp [emitGroup]
  | cons it rest ih =>
    intro k idx hdrop
    cases k with
    | zero => simp [emitGroup]
    | succ k' =>
      have hget : items[idx]? = some it := by
        rw [← List.head?_drop, hdrop]
        rfl
      have hdrop' : items.drop (idx + 1) = rest := by
        rw [← List.tail_drop, hdrop]
        rfl
      simp only [List.take_succ_cons, List.map_cons]
      show (match items[idx]? with
        | some item => (item.id, (e it.Q).map rnd) ::
            emitGroup rnd items ((rest.take k').map (fun it => e it.Q)) (idx + 1)
        | none => emitGroup rnd items ((rest.take k').map (fun it => e it.Q)) (idx + 1)) =
        (it.id, (e it.Q).map rnd) :: (rest.take k').map (fun it => (it.id, (e it.Q).map rnd))
      rw [hget, ih k' (idx + 1) hdrop']

/-- Running the outer loop over the 64-grouped question texts of the
remaining items, starting at the matching index, pairs every returned vector
with its originating item. -/
theorem embedLoop_spec {α : Type} (e : List Char → List α) (rnd : α → α)
    (items : List QAItem) :
    ∀ (fuel : Nat) (its1 : List QAItem) (idx : Nat), items.drop idx = its1 →
      its1.length ≤ fuel →
      embedLoop rnd items
        ((chunkList 64 (its1.map (fun it => it.Q))).map (fun g => g.map e)) idx =
        its1.map (fun it => (it.id, (e it.Q).map rnd)) := by
  intro fuel
  induction fuel with
  | zero =>
    intro its1 idx hdrop hlen
    have : its1 = [] := List.length_eq_zero.mp (by omega)
    subst this
    simp [chunkList, chunkListGo_nil, embedLoop]
  | succ f ih =>
    intro its1 idx hdrop hlen
    by_cases hits : its1 = []
    · subst hits
      simp [chunkList, chunkListGo_nil, embedLoop]
    · have hmne : its1.map (fun it => it.Q) ≠ [] := by
        simpa using hits
      rw [chunkList_cons 64 (by norm_num) _ hmne]
      rw [← List.map_take, ← List.map_drop]
      simp only [List.map_cons]
      rw [List.map_map]
      show emitGroup rnd items ((its1.take 64).map (fun it => e it.Q)) idx ++
          embedLoop rnd items
            ((chunkList 64 ((its1.drop 64).map (fun it => it.Q))).map (fun g => g.map e))
            (idx + ((its1.take 64).map (fun it => e it.Q)).length) =
        its1.map (fun it => (it.id, (e it.Q).map rnd))
      rw [emitGroup_spec e rnd items its1 64 idx hdrop]
      have hlen64 : ((its1.take 64).map (fun it => e it.Q)).length =
          (its1.take 64).length := List.length_map _ _
      have hdropeq : items.drop (idx + (its1.take 64).length) = its1.drop 64 := by
        rw [← List.drop_drop, hdrop]
        rcases le_total its1.length 64 with hle | hle
        · rw [List.drop_eq_nil_of_le (by simp [List.length_take]; omega),
            List.drop_eq_nil_of_le hle]
        · congr 1
          simp [List.length_take]
          omega
      rw [hlen64]
      rw [ih (its1.drop 64) (idx + (its1.take 64).length) hdropeq
        (by simp only [List.length_drop]; have := List.length_pos.mpr hits; omega)]
      rw [← List.map_append, List.take_append_drop]

/-- C8: for every group size `n ≥ 1` the batcher's grouping function splits a
list into consecutive groups whose concatenation is the original list, with
every group except possibly the last of length exactly `n`; consequently
`embedBatch` — given that the embedding service returns one vector per input
in input order — associates the i-th returned vector with the i-th
KnowledgeItem of the batch. -/
theorem c8_batching :
    (∀ (α : Type) (n : Nat) (xs : List α), 1 ≤ n →
        (chunkList n xs).flatten = xs ∧
        ∀ g ∈ (chunkList n xs).dropLast, g.length = n)
    ∧ (∀ (α : Type) (e : List Char → List α) (rnd : α → α) (items : List QAItem),
        embedVectors e rnd items =
          items.map (fun it => (it.id, (e it.Q).map rnd))) := by
  constructor
  · intro α n xs hn
    exact ⟨chunkList_flatten n hn xs.length xs le_rfl,
      fun g hg => chunkList_dropLast_length n hn xs.length xs g le_rfl hg⟩
  · intro α e rnd items
    unfold embedVectors
    exact embedLoop_spec e rnd items items.length items 0 rfl le_rfl

theorem c8_witness :
    (chunkList 2 [0, 1, 2]).flatten = [0, 1, 2] ∧
      ∀ g ∈ (chunkList 2 [0, 1, 2]).dropLast, g.length = 2 :=
  c8_batching.1 Nat 2 [0, 1, 2] (by norm_num)

/-! ## Hybrid Retriever/Ranker (hybrid chat route of app/api) -/

/-- Row of `kb_items` as selected by the retriever (`id,q,a`; the `source`
column is carried along by the route but never used by the scoring logic, so
it is omitted).  Ids are opaque; `0` plays the role of a falsy id (the route
skips full-text hits with `if (!r.id) continue`). -/
structure KBRow where
  id : Nat
  q : List Char
  a : List Char
deriving DecidableEq

/-- Scored candidate produced by step 4 of the route
(`{ ...r, atext, hybrid, semScore, lexScore }`). -/
structure ScoredRow where
  id : Nat
  q : List Char
  a : List Char
  atext : List Char
  hybrid : ℚ
  semScore : ℚ
  lexScore : ℚ
deriving DecidableEq

/-- Model of `lc`: `norm(s).toLowerCase()` (the route's `norm` is the same
whitespace collapse and trim as the chunker's `clean`). -/
def lcNorm (s : List Char) : List Char := (clean s).map Char.toLower

/-- The denylist `OFF_TOPIC_TERMS` of the route, verbatim. -/
def OFF_TOPIC_TERMS : List (List Char) :=
  ["condition management".toList, "disease management".toList, "health coach".toList,
   "coaches".toList, "coaching".toList, "resilience".toList,
   "resilience training".toList, "life stress".toList, "stress coaching".toList,
   "pain coaching".toList, "prochaska".toList, "stages of change".toList,
   "motivational interviewing".toList, "peer support".toList, "wellness".toList]

/-- Model of `H.includes(n)` on JS strings: `needle` occurs contiguously in
`hay`. -/
def substringOf (needle hay : List Char) : Bool :=
  hay.tails.any (fun t => needle.isPrefixOf t)

/-- Model of `hasAny(hay, needles)`: some needle is a substring of the
lower-cased normalized haystack. -/
def hasAny (hay : List Char) (needles : List (List Char)) : Bool :=
  needles.any (fun n => substringOf n (lcNorm hay))

/-- Match of the first alternative `[•\-]\s` of the quality regex at the head
of the list. -/
def alt1At : List Char → Bool
  | c :: w :: _ => (c = '•' || c = '-') && isWs w
  | _ => false

/-- Match of the second alternative `\n\d+\.\s` of the quality regex at the
head of the list. -/
def alt2At : List Char → Bool
  | [] => false
  | c :: rest =>
    c = '\n' &&
    (rest.takeWhile Char.isDigit ≠ [] &&
      (match rest.dropWhile Char.isDigit with
       | '.' :: w :: _ => isWs w
       | _ => false))

/-- Model of `/[•\-]\s|\n\d+\.\s/.test(s)`. -/
def bulletRe (s : List Char) : Bool :=
  s.tails.any (fun t => alt1At t || alt2At t)

/-- Model of `new Map(entries).get(id) || 0`: the value of the last entry
with the given key (later entries of a JS `Map` constructor overwrite
earlier ones), defaulting to 0. -/
def mapGetLast (entries : List (Nat × ℚ)) (id : Nat) : ℚ :=
  ((entries.reverse.find? (fun p => p.1 = id)).map Prod.snd).getD 0

/-- Model of one `lexCands.set(r.id, Math.max(prev, rank))` update with
`prev = lexCands.get(r.id) || 0`: an existing key keeps its position and
takes the max; a new key is appended (JS `Map` preserves insertion order). -/
def lexUpsert (m : List (Nat × ℚ)) (id : Nat) (rank : ℚ) : List (Nat × ℚ) :=
  let prev := ((m.find? (fun p => p.1 = id)).map Prod.snd).getD 0
  if (m.find? (fun p => p.1 = id)).isSome then
    m.map (fun p => if p.1 = id then (p.1, max prev rank) else p)
  else m ++ [(id, max prev rank)]

/-- Step 2 of the route: the lexical candidate map built from the question
full-text hits followed by the answer full-text hits, skipping falsy ids and
merging duplicates by maximum rank. -/
def lexCandsOf (qRows aRows : List (Nat × ℚ)) : List (Nat × ℚ) :=
  (qRows ++ aRows).foldl (fun m p => if p.1 = 0 then m else lexUpsert m p.1 p.2) []

/-- Step 4 of the route for one fetched item: normalized answer text, the
semantic and (max-normalized) lexical scores, the quality bonuses, the
off-topic penalty, and the blended hybrid score
`0.65·sem + 0.35·lex + quality + penalty`. -/
def scoreOne (semCands lexCands : List (Nat × ℚ)) (maxLex : ℚ) (r : KBRow) :
    ScoredRow :=
  let atext := clean r.a
  let semScore := mapGetLast semCands r.id
  let lexScore : ℚ := if maxLex = 0 then 0 else mapGetLast lexCands r.id / maxLex
  let quality : ℚ :=
    (if 300 < atext.length then 0.15 else 0) + (if bulletRe atext then 0.1 else 0)
  let penalty : ℚ := if hasAny (r.q ++ ' ' :: r.a) OFF_TOPIC_TERMS then -0.25 else 0
  ⟨r.id, r.q, r.a, atext, 0.65 * semScore + 0.35 * lexScore + quality + penalty,
    semScore, lexScore⟩

/-- Step 4 of the route over the fetched items, with
`maxLex = Math.max(0, ...lexCands.values())`. -/
def scoreRows (semCands lexCands : List (Nat × ℚ)) (items : List KBRow) :
    List ScoredRow :=
  items.map (scoreOne semCands lexCands ((lexCands.map Prod.snd).foldl max 0))

/-- Stable insertion: the new element is placed before the first existing
element it may precede.  Inserting elements from right to left therefore
reproduces exactly the stable sort mandated for `Array.prototype.sort`. -/
def insertSorted {α : Type} (le : α → α → Bool) (x : α) : List α → List α
  | [] => [x]
  | y :: ys => if le x y then x :: y :: ys else y :: insertSorted le x ys

/-- Stable sort by the Boolean relation `le` (`le x y` = `x` may come before
`y`), modelling the ES2019+ stable `Array.prototype.sort`. -/
def stableSort {α : Type} (le : α → α → Bool) (l : List α) : List α :=
  l.foldr (insertSorted le) []

/-- Comparator `(a, b) => b.hybrid - a.hybrid`: descending by hybrid score. -/
def byHybridDesc (x y : ScoredRow) : Bool := decide (y.hybrid ≤ x.hybrid)

/-- The minimum answer length constant of the route. -/
def MIN_ANSWER_LEN : Nat := 40

/-- Step 5's gate: `results.filter(r => r.atext.length >= MIN_ANSWER_LEN)`. -/
def minLenGate (results : List ScoredRow) : List ScoredRow :=
  results.filter (fun r => decide (MIN_ANSWER_LEN ≤ r.atext.length))

/-- Outcome of step 1 of the route: the semantic candidates, with the
`try/catch` that turns any embedding or similarity-search failure into the
empty semantic candidate list. -/
def semCandsOf (semResult : Except Unit (List (Nat × ℚ))) : List (Nat × ℚ) :=
  match semResult with
  | .error _ => []
  | .ok d => d

/-- Steps 1–5 of the route combined: score the fetched candidate items,
drop answers shorter than `MIN_ANSWER_LEN`, sort descending by hybrid score
(stable), and keep the top 12 (`.filter(...).sort(...).slice(0, 12)`).
`items` is the `kb_items` fetch for the candidate-id union (the store
returns at most 120 of the requested rows, in unspecified order). -/
def retrieveScored (semResult : Except Unit (List (Nat × ℚ)))
    (qRows aRows : List (Nat × ℚ)) (items : List KBRow) : List ScoredRow :=
  (stableSort byHybridDesc
    (minLenGate (scoreRows (semCandsOf semResult) (lexCandsOf qRows aRows) items))).take 12

/-! ### Sorting lemmas -/

theorem mem_insertSorted {α : Type} (le : α → α → Bool) (x y : α) :
    ∀ (l : List α), x ∈ insertSorted le y l ↔ x = y ∨ x ∈ l := by
  intro l
  induction l with
  | nil => simp [insertSorted]
  | cons z zs ih =>
    by_cases h : le y z
    · simp [insertSorted, h]
    · simp only [insertSorted, if_neg h, List.mem_cons, ih]
      tauto

theorem length_insertSorted {α : Type} (le : α → α → Bool) (x : α) :
    ∀ (l : List α), (insertSorted le x l).length = l.length + 1 := by
  intro l
  induction l with
  | nil => rfl
  | cons z zs ih =>
    by_cases h : le x z
    · simp [insertSorted, h]
    · simp [insertSorted, h, ih]

theorem mem_stableSort {α : Type} (le : α → α → Bool) (x : α) :
    ∀ (l : List α), x ∈ stableSort le l ↔ x ∈ l := by
  intro l
  induction l with
  | nil => simp [stableSort]
  | cons z zs ih =>
    show x ∈ insertSorted le z (stableSort le zs) ↔ x ∈ z :: zs
    rw [mem_insertSorted, List.mem_cons, ih]

theorem length_stableSort {α : Type} (le : α → α → Bool) :
    ∀ (l : List α), (stableSort le l).length = l.length := by
  intro l
  induction l with
  | nil => rfl
  | cons z zs ih =>
    show (insertSorted le z (stableSort le zs)).length = zs.length + 1
    rw [length_insertSorted, ih]

theorem pairwise_insertSorted {α : Type} (le : α → α → Bool)
    (htot : ∀ a b, le a b = true ∨ le b a = true)
    (htrans : ∀ a b c, le a b = true → le b c = true → le a c = true) (x : α) :
    ∀ (l : List α), l.Pairwise (fun a b => le a b = true) →
      (insertSorted le x l).Pairwise (fun a b => le a b = true) := by
  intro l
  induction l with
  | nil =>
    intro _
    simp [insertSorted]
  | cons y ys ih =>
    intro hp
    rcases List.pairwise_cons.mp hp with ⟨hy, hys⟩
    cases h : le x y with
    | true =>
      rw [show insertSorted le x (y :: ys) = x :: y :: ys by simp [insertSorted, h]]
      refine List.pairwise_cons.mpr ⟨?_, hp⟩
      intro z hz
      rcases List.mem_cons.mp hz with hz | hz
      · subst hz; exact h
      · exact htrans x y z h (hy z hz)
    | false =>
      rw [show insertSorted le x (y :: ys) = y :: insertSorted le x ys by
        simp [insertSorted, h]]
      refine List.pairwise_cons.mpr ⟨?_, ih hys⟩
      intro z hz
      rcases (mem_insertSorted le z x ys).mp hz with hz | hz
      · subst hz
        rcases htot z y with hxy | hyx
        · rw [h] at hxy; exact absurd hxy (by simp)
        · exact hyx
      · exact hy z hz

theorem pairwise_stableSort {α : Type} (le : α → α → Bool)
    (htot : ∀ a b, le a b = true ∨ le b a = true)
    (htrans : ∀ a b c, le a b = true → le b c = true → le a c = true) :
    ∀ (l : List α), (stableSort le l).Pairwise (fun a b => le a b = true) := by
  intro l
  induction l with
  | nil => simp [stableSort]
  | cons z zs ih =>
    exact pairwise_insertSorted le htot htrans z (stableSort le zs) ih

/-- C6: a candidate passes the minimum-length gate exactly when its
normalized answer text has at least `MIN_ANSWER_LEN = 40` characters (the
route measures `atext = norm(r.a)`); the gate runs before the ranking and
shortlist, so every row of the final shortlist satisfies it; at the boundary
an answer of length 39 is excluded while length 40 is included. -/
theorem c6_min_length_gate :
    (∀ (results : List ScoredRow) (r : ScoredRow), r ∈ results →
        (r ∈ minLenGate results ↔ MIN_ANSWER_LEN ≤ r.atext.length))
    ∧ (∀ (sem : Except Unit (List (Nat × ℚ))) (qr ar : List (Nat × ℚ))
        (items : List KBRow) (r : ScoredRow), r ∈ retrieveScored sem qr ar items →
        MIN_ANSWER_LEN ≤ r.atext.length)
    ∧ ((⟨1, [], [], List.replicate 39 'a', 0, 0, 0⟩ : ScoredRow) ∉
        minLenGate [⟨1, [], [], List.replicate 39 'a', 0, 0, 0⟩,
          ⟨2, [], [], List.replicate 40 'a', 0, 0, 0⟩]
      ∧ (⟨2, [], [], List.replicate 40 'a', 0, 0, 0⟩ : ScoredRow) ∈
        minLenGate [⟨1, [], [], List.replicate 39 'a', 0, 0, 0⟩,
          ⟨2, [], [], List.replicate 40 'a', 0, 0, 0⟩]) := by
  refine ⟨?_, ?_, by decide⟩
  · intro results r hr
    constructor
    · intro hg
      simpa using (List.mem_filter.mp hg).2
    · intro hlen
      exact List.mem_filter.mpr ⟨hr, by simpa using hlen⟩
  · intro sem qr ar items r hr
    unfold retrieveScored at hr
    have hr2 := List.mem_of_mem_take hr
    rw [mem_stableSort] at hr2
    simpa using (List.mem_filter.mp hr2).2

theorem c6_witness :
    (⟨2, [], [], List.replicate 40 'a', 0, 0, 0⟩ : ScoredRow) ∈
        minLenGate [⟨2, [], [], List.replicate 40 'a', 0, 0, 0⟩] ↔
      MIN_ANSWER_LEN ≤ (⟨2, [], [], List.replicate 40 'a', 0, 0, 0⟩ : ScoredRow).atext.length :=
  c6_min_length_gate.1 _ _ (by decide)

/-- Sample answer long enough to pass the minimum-length gate. -/
def okAnswer : List Char :=
  "We guarantee a very high level of uptime for all customers.".toList

/-- C5 (counterexample): the semantic step fails, lexical search returns one
hit, the hit's item exists — but its answer is shorter than the 40-character
gate, so the ranked list comes back empty, refuting "the retriever still
returns a non-empty ranked candidate list". -/
theorem c5_counterexample :
    retrieveScored (.error ()) [(1, 1)] [] [⟨1, "q?".toList, "short".toList⟩] = [] := by
  decide

/-- C5 (amended): when the embedding call or the similarity search fails
(semantic candidates empty via the route's catch) and the lexical hits
resolve to stored items at least one of which passes the 40-character answer
gate, retrieval returns — without any hard error — a non-empty ranked list
built solely from lexical candidates: every returned row's id comes from the
lexical hits and carries semantic score 0. -/
theorem c5_amended (qr ar : List (Nat × ℚ)) (items : List KBRow)
    (h1 : ∃ r ∈ items, 40 ≤ (clean r.a).length)
    (h2 : ∀ r ∈ items, r.id ∈ (qr ++ ar).map Prod.fst) :
    retrieveScored (.error ()) qr ar items ≠ [] ∧
      ∀ s ∈ retrieveScored (.error ()) qr ar items,
        s.id ∈ (qr ++ ar).map Prod.fst ∧ s.semScore = 0 := by
  constructor
  · obtain ⟨r, hr, hlen⟩ := h1
    apply List.ne_nil_of_length_pos
    unfold retrieveScored
    rw [List.length_take, length_stableSort]
    have hmem : scoreOne (semCandsOf (.error ())) (lexCandsOf qr ar)
        (((lexCandsOf qr ar).map Prod.snd).foldl max 0) r ∈
        minLenGate (scoreRows (semCandsOf (.error ())) (lexCandsOf qr ar) items) := by
      apply List.mem_filter.mpr
      refine ⟨List.mem_map.mpr ⟨r, hr, rfl⟩, ?_⟩
      exact decide_eq_true hlen
    have hpos : 0 <
        (minLenGate (scoreRows (semCandsOf (.error ())) (lexCandsOf qr ar) items)).length :=
      List.length_pos.mpr (List.ne_nil_of_mem hmem)
    omega
  · intro s hs
    unfold retrieveScored at hs
    have hs2 := List.mem_of_mem_take hs
    rw [mem_stableSort] at hs2
    have hs3 := (List.mem_filter.mp hs2).1
    obtain ⟨r, hr, heq⟩ := List.mem_map.mp hs3
    rw [← heq]
    exact ⟨h2 r hr, rfl⟩

theorem c5_witness :
    retrieveScored (.error ()) [(1, 1)] [] [⟨1, "What is your SLA?".toList, okAnswer⟩] ≠ [] ∧
      ∀ s ∈ retrieveScored (.error ()) [(1, 1)] [] [⟨1, "What is your SLA?".toList, okAnswer⟩],
        s.id ∈ ([((1 : Nat), (1 : ℚ))] ++ []).map Prod.fst ∧ s.semScore = 0 :=
  c5_amended [(1, 1)] [] [⟨1, "What is your SLA?".toList, okAnswer⟩]
    (by decide) (by decide)

/-- Identical answer text shared by the two candidates of the dedup
scenario. -/
def dupAnswer : List Char :=
  "The service level agreement guarantees uptime every day of the year.".toList

/-- First candidate row of the dedup scenario. -/
def dupRow1 : KBRow := ⟨1, "What is your SLA?".toList, dupAnswer⟩

/-- Second candidate row of the dedup scenario. -/
def dupRow2 : KBRow := ⟨2, "Describe your SLA.".toList, dupAnswer⟩

/-- Semantic scores chosen so the hybrid scores are exactly 0.9 and 0.7. -/
def dupSem : List (Nat × ℚ) := [(1, 18/13), (2, 14/13)]

theorem dupScore1_hybrid : (scoreOne dupSem [] 0 dupRow1).hybrid =
    0.65 * (18/13 : ℚ) + 0.35 * 0 + (0 + 0) + 0 := rfl

theorem dupScore2_hybrid : (scoreOne dupSem [] 0 dupRow2).hybrid =
    0.65 * (14/13 : ℚ) + 0.35 * 0 + (0 + 0) + 0 := rfl

theorem dupShortlist :
    retrieveScored (.ok dupSem) [] [] [dupRow1, dupRow2] =
      [scoreOne dupSem [] 0 dupRow1, scoreOne dupSem [] 0 dupRow2] := by
  have hcmp : byHybridDesc (scoreOne dupSem [] 0 dupRow1)
      (scoreOne dupSem [] 0 dupRow2) = true := by
    unfold byHybridDesc
    rw [dupScore1_hybrid, dupScore2_hybrid]
    rw [decide_eq_true_eq]
    norm_num
  show (stableSort byHybridDesc
    (minLenGate (scoreRows (semCandsOf (.ok dupSem)) (lexCandsOf [] [])
      [dupRow1, dupRow2]))).take 12 = _
  rw [show minLenGate (scoreRows (semCandsOf (.ok dupSem)) (lexCandsOf [] [])
      [dupRow1, dupRow2]) =
      [scoreOne dupSem [] 0 dupRow1, scoreOne dupSem [] 0 dupRow2] from rfl]
  show (insertSorted byHybridDesc (scoreOne dupSem [] 0 dupRow1)
      (insertSorted byHybridDesc (scoreOne dupSem [] 0 dupRow2) [])).take 12 = _
  rw [show insertSorted byHybridDesc (scoreOne dupSem [] 0 dupRow2) [] =
      [scoreOne dupSem [] 0 dupRow2] from rfl]
  show ((if byHybridDesc (scoreOne dupSem [] 0 dupRow1) (scoreOne dupSem [] 0 dupRow2)
      then scoreOne dupSem [] 0 dupRow1 :: [scoreOne dupSem [] 0 dupRow2]
      else scoreOne dupSem [] 0 dupRow2 ::
        insertSorted byHybridDesc (scoreOne dupSem [] 0 dupRow1) []).take 12) =
    [scoreOne dupSem [] 0 dupRow1, scoreOne dupSem [] 0 dupRow2]
  rw [hcmp]
  rfl

/-- C3 (counterexample): two candidates with identical answers (hence
identical 200-character answer prefixes) and hybrid scores 0.9 and 0.7 — the
shortlist assembly keeps BOTH, merely ordering the 0.9 one first; no
prefix-based near-duplicate suppression exists in the pipeline, refuting
"the shortlist contains the 0.9 one and not the 0.7 one". -/
theorem c3_counterexample :
    (retrieveScored (.ok dupSem) [] [] [dupRow1, dupRow2]).map ScoredRow.id = [1, 2] ∧
    (retrieveScored (.ok dupSem) [] [] [dupRow1, dupRow2]).map ScoredRow.hybrid =
      [9/10, 7/10] ∧
    (retrieveScored (.ok dupSem) [] [] [dupRow1, dupRow2]).map
        (fun s => s.atext.take 200) =
      [(clean dupAnswer).take 200, (clean dupAnswer).take 200] := by
  rw [dupShortlist]
  refine ⟨rfl, ?_, rfl⟩
  rw [List.map_cons, List.map_cons, List.map_nil, dupScore1_hybrid, dupScore2_hybrid]
  norm_num

/-- C3 (amended): the shortlist assembly performs no near-duplicate
suppression at all: whenever the gated pool has at most 12 rows, every
gate-passing candidate appears in the final shortlist regardless of shared
answer prefixes, and the shortlist is simply the pool ordered descending by
hybrid score. -/
theorem c3_amended :
    (∀ (sem : Except Unit (List (Nat × ℚ))) (qr ar : List (Nat × ℚ))
        (items : List KBRow) (r : ScoredRow),
        r ∈ minLenGate (scoreRows (semCandsOf sem) (lexCandsOf qr ar) items) →
        (minLenGate (scoreRows (semCandsOf sem) (lexCandsOf qr ar) items)).length ≤ 12 →
        r ∈ retrieveScored sem qr ar items)
    ∧ (∀ (sem : Except Unit (List (Nat × ℚ))) (qr ar : List (Nat × ℚ))
        (items : List KBRow),
        (retrieveScored sem qr ar items).Pairwise
          (fun a b => b.hybrid ≤ a.hybrid)) := by
  constructor
  · intro sem qr ar items r hr hlen
    unfold retrieveScored
    rw [List.take_of_length_le (by rw [length_stableSort]; exact hlen)]
    exact (mem_stableSort byHybridDesc r _).mpr hr
  · intro sem qr ar items
    unfold retrieveScored
    have hp := pairwise_stableSort byHybridDesc
      (fun a b => by
        unfold byHybridDesc
        rcases le_total b.hybrid a.hybrid with h | h
        · exact Or.inl (decide_eq_true h)
        · exact Or.inr (decide_eq_true h))
      (fun a b c hab hbc => by
        unfold byHybridDesc at *
        exact decide_eq_true (le_trans (of_decide_eq_true hbc) (of_decide_eq_true hab)))
      (minLenGate (scoreRows (semCandsOf sem) (lexCandsOf qr ar) items))
    have hsub := List.Pairwise.sublist (List.take_sublist 12 _) hp
    exact hsub.imp (fun h => of_decide_eq_true h)

theorem c3_witness :
    scoreOne [(1, 1)] [] 0 (⟨1, "What is your SLA?".toList, okAnswer⟩ : KBRow) ∈
      retrieveScored (.ok [(1, 1)]) [] [] [⟨1, "What is your SLA?".toList, okAnswer⟩] :=
  c3_amended.1 (.ok [(1, 1)]) [] [] [⟨1, "What is your SLA?".toList, okAnswer⟩] _
    (by rw [show minLenGate (scoreRows (semCandsOf (.ok [(1, 1)])) (lexCandsOf [] [])
          [⟨1, "What is your SLA?".toList, okAnswer⟩]) =
          [scoreOne [(1, 1)] [] 0 ⟨1, "What is your SLA?".toList, okAnswer⟩] from rfl]
        exact List.mem_singleton.mpr rfl)
    (by decide)

/-! ## Report generator retrieval (matchFromKB of app/api/generate-report) -/

/-- Candidate scored and judged by `matchFromKB`
(`{ ...r, hybrid, relevant, sem, lex }`). -/
structure JudgedRow where
  id : Nat
  q : List Char
  a : List Char
  hybrid : ℚ
  relevant : Bool
  sem : ℚ
  lex : ℚ
deriving DecidableEq

/-- Lower-casing of a JS string (`toLowerCase`, without normalization). -/
def lowerAll (s : List Char) : List Char := s.map Char.toLower

/-- Scoring and judging of one candidate inside `matchFromKB`'s
`Promise.all`: the lexical score is 1 when the query occurs in the
lower-cased `q + a` and 0.5 otherwise; the semantic score is the RPC score
for this id with `|| 0.5` turning both a missing and a zero score into 0.5;
the external judge's completion (`Except.error` = the call failed; `some c` =
response text, `none` = missing content) marks the row relevant only when the
trimmed, lower-cased response is exactly "yes".  A failed judge call makes
the whole row — and with it `matchFromKB`'s `Promise.all` — fail. -/
def judgeOne (sem : List (Nat × ℚ)) (q : List Char)
    (judge : KBRow → Except Unit (Option (List Char))) (r : KBRow) :
    Except Unit JudgedRow :=
  let lexical : ℚ := if substringOf (lowerAll q) (lowerAll (r.q ++ r.a)) then 1 else 0.5
  let semScore : ℚ :=
    match (sem.find? (fun s => s.1 = r.id)).map Prod.snd with
    | none => 0.5
    | some v => if v = 0 then 0.5 else v
  match judge r with
  | .error e => .error e
  | .ok resp =>
    let relevant :=
      match resp with
      | some c => lowerAll (jsTrim c) = "yes".toList
      | none => false
    .ok ⟨r.id, r.q, r.a, 0.6 * semScore + 0.4 * lexical, relevant, semScore, lexical⟩

/-- Sequential model of `Promise.all` over fallible per-row computations:
the first error aborts the whole batch. -/
def mapMExcept {α β : Type} (f : α → Except Unit β) : List α → Except Unit (List β)
  | [] => .ok []
  | x :: xs =>
    match f x with
    | .error e => .error e
    | .ok y =>
      match mapMExcept f xs with
      | .error e => .error e
      | .ok ys => .ok (y :: ys)

/-- Comparator `(a, b) => b.hybrid - a.hybrid` for judged rows. -/
def byHybridDescJ (x y : JudgedRow) : Bool := decide (y.hybrid ≤ x.hybrid)

/-- Model of `matchFromKB(supabase, openai, q)` from the report route.  The
embedding of the query is opaque; `semResult` is the outcome of the
`match_kb_items` RPC (its `try/catch` degrades an error to the empty
semantic list); `rows` is the `kb_items` fetch for the semantic ids (empty
fetch returns `(null, [])` at once); the first ten rows are scored and
judged, relevance-filtered (only rows the judge marked "yes" survive),
sorted descending by hybrid score, and the head is the contextual answer. -/
def matchFromKB (semResult : Except Unit (List (Nat × ℚ))) (rows : List KBRow)
    (judge : KBRow → Except Unit (Option (List Char))) (q : List Char) :
    Except Unit (Option JudgedRow × List JudgedRow) :=
  let sem := semCandsOf semResult
  if rows.length = 0 then .ok (none, [])
  else
    match mapMExcept (judgeOne sem q judge) (rows.take 10) with
    | .error e => .error e
    | .ok hybrid =>
      let filtered := stableSort byHybridDescJ (hybrid.filter (fun r => r.relevant))
      .ok (filtered.head?, filtered)

/-! ### matchFromKB lemmas -/

theorem judgeOne_error (sem : List (Nat × ℚ)) (q : List Char)
    (judge : KBRow → Except Unit (Option (List Char))) (r : KBRow)
    (h : judge r = .error ()) : judgeOne sem q judge r = .error () := by
  unfold judgeOne
  rw [h]

theorem mapMExcept_error {α β : Type} (f : α → Except Unit β) :
    ∀ (l : List α), (∃ x ∈ l, f x = .error ()) → mapMExcept f l = .error () := by
  intro l
  induction l with
  | nil => intro h; simp at h
  | cons x xs ih =>
    intro h
    unfold mapMExcept
    cases hfx : f x with
    | error e => cases e; rfl
    | ok y =>
      obtain ⟨z, hz, hze⟩ := h
      rcases List.mem_cons.mp hz with hz | hz
      · subst hz; rw [hfx] at hze; cases hze
      · rw [ih ⟨z, hz, hze⟩]

theorem head?_eq_some_mem {α : Type} (l : List α) (a : α) (h : l.head? = some a) :
    a ∈ l := by
  cases l with
  | nil => cases h
  | cons x xs =>
    rw [List.head?_cons] at h
    injection h with h
    subst h
    exact List.mem_cons_self x xs

/-- Sample row for the judge scenarios. -/
def judgeRow : KBRow :=
  ⟨1, "What uptime do you offer?".toList,
    "We offer high uptime around the clock for every customer.".toList⟩

/-- C4 (counterexample): with one retrieved candidate, a judge that answers
"maybe" (unparseable as a relevance verdict) empties the shortlist — the
candidate is removed because of the unparseable judge response — and a judge
whose call fails makes the whole retrieval fail with a hard error instead of
skipping the filter.  Both refute the claimed fail-open behavior. -/
theorem c4_counterexample :
    matchFromKB (.ok [(1, 1)]) [judgeRow]
        (fun _ => .ok (some ("maybe".toList))) ("uptime".toList) = .ok (none, []) ∧
      matchFromKB (.ok [(1, 1)]) [judgeRow]
        (fun _ => .error ()) ("uptime".toList) = .error () :=
  ⟨rfl, rfl⟩

/-- C4 (amended): `matchFromKB`'s relevance filter is fail-closed, not
fail-open: a failed judge call on any of the (at most ten) candidates makes
the whole retrieval surface an error, and in a successful retrieval every
returned candidate — including the contextual top-1 — was explicitly judged
relevant ("yes"), so candidates with failed-to-parse verdicts are removed
rather than kept.  Only the semantic-search RPC step fails open: an RPC
error is equivalent to an empty semantic candidate list. -/
theorem c4_amended :
    (∀ (sem : Except Unit (List (Nat × ℚ))) (rows : List KBRow)
        (judge : KBRow → Except Unit (Option (List Char))) (q : List Char),
        (∃ r ∈ rows.take 10, judge r = .error ()) →
        matchFromKB sem rows judge q = .error ())
    ∧ (∀ (sem : Except Unit (List (Nat × ℚ))) (rows : List KBRow)
        (judge : KBRow → Except Unit (Option (List Char))) (q : List Char)
        (out : Option JudgedRow × List JudgedRow),
        matchFromKB sem rows judge q = .ok out →
        (∀ jr ∈ out.2, jr.relevant = true) ∧
        ∀ jr, out.1 = some jr → jr.relevant = true)
    ∧ (∀ (rows : List KBRow) (judge : KBRow → Except Unit (Option (List Char)))
        (q : List Char),
        matchFromKB (.error ()) rows judge q = matchFromKB (.ok []) rows judge q) := by
  refine ⟨?_, ?_, fun rows judge q => rfl⟩
  · intro sem rows judge q h
    obtain ⟨r, hr, hjr⟩ := h
    have hne : ¬ rows.length = 0 := by
      intro h0
      rw [List.length_eq_zero.mp h0] at hr
      simp at hr
    unfold matchFromKB
    rw [if_neg hne]
    rw [mapMExcept_error _ _ ⟨r, hr, judgeOne_error _ _ _ _ hjr⟩]
  · intro sem rows judge q out hok
    unfold matchFromKB at hok
    by_cases h0 : rows.length = 0
    · rw [if_pos h0] at hok
      injection hok with hok
      subst hok
      exact ⟨by intro jr hjr; simp at hjr, by intro jr hjr; simp at hjr⟩
    · rw [if_neg h0] at hok
      cases hm : mapMExcept (judgeOne (semCandsOf sem) q judge) (rows.take 10) with
      | error e => rw [hm] at hok; cases hok
      | ok l =>
        rw [hm] at hok
        injection hok with hok
        subst hok
        constructor
        · intro jr hjr
          have := (mem_stableSort byHybridDescJ jr _).mp hjr
          simpa using (List.mem_filter.mp this).2
        · intro jr hjr
          have hmem := head?_eq_some_mem _ jr hjr
          have := (mem_stableSort byHybridDescJ jr _).mp hmem
          simpa using (List.mem_filter.mp this).2

theorem c4_witness :
    matchFromKB (.ok [(1, 1)]) [judgeRow] (fun _ => .error ()) ("uptime".toList) =
      .error () :=
  c4_amended.1 (.ok [(1, 1)]) [judgeRow] (fun _ => .error ()) ("uptime".toList)
    ⟨judgeRow, by decide, rfl⟩

theorem c9_witness :
    ((splitHalves [(⟨0, false⟩ : Row), ⟨1, true⟩]).1.length =
        ([(⟨0, false⟩ : Row), ⟨1, true⟩].length + 1) / 2 ∧
      (splitHalves [(⟨0, false⟩ : Row), ⟨1, true⟩]).2.length =
        [(⟨0, false⟩ : Row), ⟨1, true⟩].length / 2 ∧
      (splitHalves [(⟨0, false⟩ : Row), ⟨1, true⟩]).1.length <
        [(⟨0, false⟩ : Row), ⟨1, true⟩].length ∧
      (splitHalves [(⟨0, false⟩ : Row), ⟨1, true⟩]).2.length <
        [(⟨0, false⟩ : Row), ⟨1, true⟩].length) ∧
    tryUpsertG poisonAtt (0 + 1) [(⟨5, true⟩ : Row)] 3 =
      (if [(⟨5, true⟩ : Row)] = [] then ([], none)
       else match poisonAtt [(⟨5, true⟩ : Row)] 3 with
            | none => ([(⟨5, true⟩ : Row)], none)
            | some e => ([], some e.msg)) :=
  ⟨c9_halving_terminates.1 [⟨0, false⟩, ⟨1, true⟩] (by decide),
    c9_halving_terminates.2 poisonAtt 0 [⟨5, true⟩] 3 (by decide)⟩
